import Mathlib

/-
A Lean model of the toy payment engine (marot/toy-payment-engine).

The engine consumes a CSV stream of per-client account operations
(deposit, withdrawal, dispute, resolve, chargeback) and emits each
client's terminal balance.  This file gives a shallow embedding of:

  * the per-client ledger state machine (src/client_state.rs),
  * the fixed-point amount codec (src/operation.rs and
    src/serialize_fractional.rs),
  * the line-chunked reader (src/read_num_lines.rs),
  * the per-client batching pipeline (src/lib.rs),

and proves the specification's claims about them.  Rust `i64` amounts
are modelled as `Int` (the spec states exact value equalities and
treats overflow as out of scope for normal workloads); the `HashMap`
of retained transactions is modelled as an association list whose
`insert` overwrites in place, matching `HashMap::insert` semantics on
duplicate keys and extensional `PartialEq` equality.
-/

/-! ## Data model (src/operation.rs, src/client_state.rs) -/

inductive OperationType
  | Deposit
  | Withdrawal
  | Dispute
  | Resolve
  | Chargeback
deriving DecidableEq, Repr

structure Operation where
  type_ : OperationType
  client : Nat
  tx_id : Nat
  amount : Int
deriving DecidableEq, Repr

inductive TransactionStatus
  | Normal
  | Disputed
deriving DecidableEq, Repr

inductive ClientStatus
  | Normal
  | Frozen
deriving DecidableEq, Repr

structure Transaction where
  operation : Operation
  status : TransactionStatus
deriving DecidableEq, Repr

structure ClientState where
  client : Nat
  available : Int
  held : Int
  status : ClientStatus
  transactions : List (Nat × Transaction)
deriving DecidableEq, Repr

/-- Lookup of a transaction by id, as `HashMap::get_mut` observes it. -/
def lookupTx : List (Nat × Transaction) → Nat → Option Transaction
  | [], _ => none
  | (k, t) :: rest, key => if k = key then some t else lookupTx rest key

/-- In-place mutation of the stored transaction with the given id,
as performed through `HashMap::get_mut`. -/
def modifyTx : List (Nat × Transaction) → Nat → (Transaction → Transaction) →
    List (Nat × Transaction)
  | [], _, _ => []
  | (k, t) :: rest, key, f =>
    if k = key then (k, f t) :: rest else (k, t) :: modifyTx rest key f

/-- `HashMap::insert`: overwrite the value stored at the key if present,
otherwise add a fresh entry. -/
def insertTx (txs : List (Nat × Transaction)) (key : Nat) (v : Transaction) :
    List (Nat × Transaction) :=
  if (lookupTx txs key).isSome then modifyTx txs key (fun _ => v)
  else txs ++ [(key, v)]

/-- `ClientState::new` (src/client_state.rs). -/
def ClientState.new (client : Nat) : ClientState :=
  { client := client, available := 0, held := 0, status := ClientStatus.Normal,
    transactions := [] }

/-- `ClientState::apply_operation` (src/client_state.rs, lines 73-122). -/
def ClientState.apply_operation (s : ClientState) (operation : Operation) : ClientState :=
  if s.status = ClientStatus.Frozen then s
  else
    match operation.type_ with
    | OperationType.Deposit =>
      { s with
        available := s.available + operation.amount,
        transactions := insertTx s.transactions operation.tx_id
          { operation := operation, status := TransactionStatus.Normal } }
    | OperationType.Withdrawal =>
      if operation.amount ≤ s.available then
        { s with available := s.available - operation.amount }
      else s
    | OperationType.Dispute =>
      match lookupTx s.transactions operation.tx_id with
      | some tx =>
        if tx.status ≠ TransactionStatus.Disputed then
          { s with
            available := s.available - tx.operation.amount,
            held := s.held + tx.operation.amount,
            transactions := modifyTx s.transactions operation.tx_id
              (fun t => { t with status := TransactionStatus.Disputed }) }
        else s
      | none => s
    | OperationType.Resolve =>
      match lookupTx s.transactions operation.tx_id with
      | some tx =>
        if tx.status = TransactionStatus.Disputed then
          { s with
            available := s.available + tx.operation.amount,
            held := s.held - tx.operation.amount,
            transactions := modifyTx s.transactions operation.tx_id
              (fun t => { t with status := TransactionStatus.Normal }) }
        else s
      | none => s
    | OperationType.Chargeback =>
      match lookupTx s.transactions operation.tx_id with
      | some tx =>
        if tx.status = TransactionStatus.Disputed then
          { s with
            held := s.held - tx.operation.amount,
            status := ClientStatus.Frozen,
            transactions := modifyTx s.transactions operation.tx_id
              (fun t => { t with status := TransactionStatus.Normal }) }
        else s
      | none => s

/-- Sequential application of a client's operations in input order,
as the per-client worker in `spawn_for_each_client` does (src/lib.rs). -/
def runLedger (s : ClientState) (ops : List Operation) : ClientState :=
  ops.foldl ClientState.apply_operation s

/-! ## Fixed-point amount codec (src/operation.rs, src/serialize_fractional.rs) -/

/-- Rust `str::split('.')` over the characters of the string: splits at every
dot, yielding at least one (possibly empty) piece. -/
def splitOnDot : List Char → List (List Char)
  | [] => [[]]
  | c :: rest =>
    if c = '.' then [] :: splitOnDot rest
    else
      match splitOnDot rest with
      | [] => [[c]]
      | p :: ps => (c :: p) :: ps

/-- Rust `str::parse::<uN>()` for an unsigned integer type with the given
exclusive bound: an optional leading sign, then one or more ASCII
digits, rejecting values reaching the bound. -/
def parseUnsignedChars (bound : Nat) (cs : List Char) : Option Nat :=
  let ds := if cs.head? = some '+' then cs.tail else cs
  if ds = [] then none
  else if ds.all Char.isDigit then
    let v := ds.foldl (fun acc c => acc * 10 + (c.toNat - '0'.toNat)) 0
    if v < bound then some v else none
  else none

/-- Rust `format!("\x7b:0<4\x7d", s)`: left-align and right-pad with `'0'`
to a minimum width of 4. -/
def padZeroRight4 (cs : List Char) : List Char :=
  if 4 ≤ cs.length then cs else cs ++ List.replicate (4 - cs.length) '0'

/-- `deserialize_amount` (src/operation.rs, lines 81-105): split on `'.'`,
parse the first piece as `u32` and scale by 10000, then, when a second
piece exists, right-pad it to width 4 and add its `u16` value. -/
def deserialize_amount (s : String) : Option Int :=
  let parts := splitOnDot s.data
  match parts.head? with
  | none => none
  | some integer_str =>
    match parseUnsignedChars (2 ^ 32) integer_str with
    | none => none
    | some integer_part =>
      let amount : Int := (integer_part : Int) * 10000
      match parts.tail.head? with
      | none => some amount
      | some fractional =>
        match parseUnsignedChars (2 ^ 16) (padZeroRight4 fractional) with
        | none => none
        | some fractional_part => some (amount + (fractional_part : Int))

/-- The amount parser exactly as the claim words it: split on the FIRST
`'.'`, parse the integer part as `u32` scaled by 10000; a fractional part
(everything after that dot) of more than 4 characters fails, otherwise it
is right-padded to exactly 4 characters and parsed as `u16` and added. -/
def claimedAmountParse (s : String) : Option Int :=
  let cs := s.data
  let ipart := cs.takeWhile (fun c => c ≠ '.')
  match parseUnsignedChars (2 ^ 32) ipart with
  | none => none
  | some i =>
    if ipart.length = cs.length then some ((i : Int) * 10000)
    else
      let fpart := cs.drop (ipart.length + 1)
      if 4 < fpart.length then none
      else
        match parseUnsignedChars (2 ^ 16) (padZeroRight4 fpart) with
        | none => none
        | some f => some ((i : Int) * 10000 + (f : Int))

/-- The amount parser as the amended claim words it: split on EVERY `'.'`;
the first piece is the integer part (`u32`, scaled by 10000); if a second
piece exists it is right-padded with `'0'` to at least 4 characters and
parsed as `u16` and added, and any pieces after the second are ignored;
a fractional piece fails exactly when its padded form fails the `u16`
parse. -/
def amendedAmountParse (s : String) : Option Int :=
  match splitOnDot s.data with
  | [] => none
  | [ipart] => (parseUnsignedChars (2 ^ 32) ipart).map (fun i => (i : Int) * 10000)
  | ipart :: fpart :: _ =>
    match parseUnsignedChars (2 ^ 32) ipart,
        parseUnsignedChars (2 ^ 16) (padZeroRight4 fpart) with
    | some i, some f => some ((i : Int) * 10000 + (f : Int))
    | some _, none => none
    | none, _ => none

/-- `serialize_fractional` (src/serialize_fractional.rs): Rust `/` and `%`
on `i64` truncate toward zero, so they are `Int.tdiv` and `Int.tmod`. -/
def serialize_fractional (value : Int) : String :=
  toString (Int.tdiv value 10000) ++ "." ++ toString (Int.tmod value 10000).natAbs

example : deserialize_amount "1.0" = some 10000 := by decide
example : deserialize_amount "4294967295.9999" = some 42949672959999 := by decide
example : deserialize_amount "" = none := by decide
example : deserialize_amount "-1.5" = none := by decide
example : serialize_fractional 10000 = "1.0" := by decide
example : serialize_fractional (-555000) = "-55.5000" := by decide

/-! ## Association-list lemmas for the transactions map -/

theorem lookupTx_mem {txs : List (Nat × Transaction)} {k : Nat} {t : Transaction}
    (h : lookupTx txs k = some t) : (k, t) ∈ txs := by
  induction txs with
  | nil => simp [lookupTx] at h
  | cons p rest ih =>
    obtain ⟨k', u⟩ := p
    by_cases hk : k' = k
    · subst hk
      simp [lookupTx] at h
      simp [h]
    · simp [lookupTx, hk] at h
      exact List.mem_cons_of_mem _ (ih h)

theorem lookupTx_modifyTx (txs : List (Nat × Transaction)) (key k : Nat)
    (f : Transaction → Transaction) :
    lookupTx (modifyTx txs key f) k =
      if k = key then (lookupTx txs key).map f else lookupTx txs k := by
  induction txs with
  | nil => simp [modifyTx, lookupTx]
  | cons p rest ih =>
    obtain ⟨k', u⟩ := p
    by_cases hk : k' = key <;> by_cases hkk : k' = k
    · subst hk
      subst hkk
      simp [modifyTx, lookupTx]
    · subst hk
      have hkk' : ¬(k = k') := fun h => hkk h.symm
      simp [modifyTx, lookupTx, hkk, hkk']
    · subst hkk
      simp [modifyTx, lookupTx, hk]
    · simp [modifyTx, lookupTx, hk, hkk, ih]

theorem modifyTx_modifyTx (txs : List (Nat × Transaction)) (key : Nat)
    (f g : Transaction → Transaction) :
    modifyTx (modifyTx txs key f) key g = modifyTx txs key (fun t => g (f t)) := by
  induction txs with
  | nil => simp [modifyTx]
  | cons p rest ih =>
    obtain ⟨k', u⟩ := p
    by_cases hk : k' = key
    · simp [modifyTx, hk]
    · simp [modifyTx, hk, ih]

theorem modifyTx_eq_self {txs : List (Nat × Transaction)} {key : Nat} {t : Transaction}
    {f : Transaction → Transaction} (h : lookupTx txs key = some t) (hf : f t = t) :
    modifyTx txs key f = txs := by
  induction txs with
  | nil => simp [modifyTx]
  | cons p rest ih =>
    obtain ⟨k', u⟩ := p
    by_cases hk : k' = key
    · subst hk
      simp [lookupTx] at h
      subst h
      simp [modifyTx, hf]
    · simp [lookupTx, hk] at h
      simp [modifyTx, hk, ih h]

/-! ## Claims C2 and C4 -/

/-- Claim C2: a `Frozen` client ignores every operation — `apply_operation`
returns the state completely unchanged (available, held, status and the
transactions map all identical), and consequently no operation sequence
leaves `Frozen`: it is terminal. -/
theorem claim_C2 (s : ClientState) (h : s.status = ClientStatus.Frozen) :
    (∀ op : Operation, s.apply_operation op = s) ∧
    (∀ ops : List Operation, runLedger s ops = s) := by
  have hstep : ∀ op : Operation, s.apply_operation op = s := fun op => by
    simp [ClientState.apply_operation, h]
  refine ⟨hstep, fun ops => ?_⟩
  induction ops with
  | nil => rfl
  | cons op rest ih =>
    rw [show runLedger s (op :: rest) = runLedger (s.apply_operation op) rest from rfl,
      hstep op]
    exact ih

/-- The frozen account the source test `frozen_account()` builds
(src/client_state.rs, lines 130-143): two deposits, a withdrawal, then a
dispute and chargeback of the second deposit. -/
def frozenAccount : ClientState :=
  ⟨0, 5, 0, ClientStatus.Frozen,
    [(1, ⟨⟨OperationType.Deposit, 0, 1, 10⟩, TransactionStatus.Normal⟩),
     (2, ⟨⟨OperationType.Deposit, 0, 2, 10⟩, TransactionStatus.Normal⟩)]⟩

example :
    runLedger (ClientState.new 0)
      [⟨OperationType.Deposit, 0, 1, 10⟩, ⟨OperationType.Deposit, 0, 2, 10⟩,
       ⟨OperationType.Withdrawal, 0, 3, 5⟩, ⟨OperationType.Dispute, 0, 2, 0⟩,
       ⟨OperationType.Chargeback, 0, 2, 0⟩] = frozenAccount := by
  decide

theorem claim_C2_witness :
    frozenAccount.status = ClientStatus.Frozen ∧
    frozenAccount.apply_operation ⟨OperationType.Deposit, 0, 4, 10⟩ = frozenAccount ∧
    frozenAccount.apply_operation ⟨OperationType.Withdrawal, 0, 5, 5⟩ = frozenAccount ∧
    frozenAccount.apply_operation ⟨OperationType.Dispute, 0, 1, 0⟩ = frozenAccount ∧
    frozenAccount.apply_operation ⟨OperationType.Resolve, 0, 2, 0⟩ = frozenAccount ∧
    frozenAccount.apply_operation ⟨OperationType.Chargeback, 0, 2, 0⟩ = frozenAccount ∧
    runLedger frozenAccount
      [⟨OperationType.Deposit, 0, 4, 10⟩, ⟨OperationType.Dispute, 0, 1, 0⟩,
       ⟨OperationType.Chargeback, 0, 1, 0⟩] = frozenAccount :=
  ⟨rfl, (claim_C2 frozenAccount rfl).1 _, (claim_C2 frozenAccount rfl).1 _,
    (claim_C2 frozenAccount rfl).1 _, (claim_C2 frozenAccount rfl).1 _,
    (claim_C2 frozenAccount rfl).1 _, (claim_C2 frozenAccount rfl).2 _⟩

/-- Claim C4: on a `Normal` client holding a `Normal` transaction `tx`,
`Dispute tx` immediately followed by `Resolve tx` restores the exact
pre-dispute state, transactions map included. -/
theorem claim_C4 (s : ClientState) (tx cl₁ cl₂ : Nat) (a₁ a₂ : Int) (t : Transaction)
    (hs : s.status = ClientStatus.Normal)
    (ht : lookupTx s.transactions tx = some t)
    (htn : t.status = TransactionStatus.Normal) :
    (s.apply_operation ⟨OperationType.Dispute, cl₁, tx, a₁⟩).apply_operation
      ⟨OperationType.Resolve, cl₂, tx, a₂⟩ = s := by
  obtain ⟨c, av, hd, st, txs⟩ := s
  simp only at hs ht
  subst hs
  simp only [ClientState.apply_operation, lookupTx_modifyTx, ht, htn,
    modifyTx_modifyTx, reduceCtorEq, reduceIte, ne_eq, Option.map_some',
    not_false_eq_true, if_true, if_false, ite_true, ite_false]
  rw [modifyTx_eq_self ht (by cases t; simp_all)]
  simp only [ClientState.mk.injEq, true_and, and_true]
  refine ⟨by ring, by ring⟩

theorem claim_C4_witness :
    (⟨0, 250000, 0, ClientStatus.Normal,
        [(1, ⟨⟨OperationType.Deposit, 0, 1, 250000⟩, TransactionStatus.Normal⟩)]⟩ :
      ClientState).status = ClientStatus.Normal ∧
    lookupTx [(1, ⟨⟨OperationType.Deposit, 0, 1, 250000⟩, TransactionStatus.Normal⟩)] 1 =
      some ⟨⟨OperationType.Deposit, 0, 1, 250000⟩, TransactionStatus.Normal⟩ ∧
    (ClientState.apply_operation
        (ClientState.apply_operation
          ⟨0, 250000, 0, ClientStatus.Normal,
            [(1, ⟨⟨OperationType.Deposit, 0, 1, 250000⟩, TransactionStatus.Normal⟩)]⟩
          ⟨OperationType.Dispute, 0, 1, 0⟩)
        ⟨OperationType.Resolve, 0, 1, 0⟩) =
      ⟨0, 250000, 0, ClientStatus.Normal,
        [(1, ⟨⟨OperationType.Deposit, 0, 1, 250000⟩, TransactionStatus.Normal⟩)]⟩ :=
  ⟨rfl, by decide,
    claim_C4
      ⟨0, 250000, 0, ClientStatus.Normal,
        [(1, ⟨⟨OperationType.Deposit, 0, 1, 250000⟩, TransactionStatus.Normal⟩)]⟩
      1 0 0 0 0 ⟨⟨OperationType.Deposit, 0, 1, 250000⟩, TransactionStatus.Normal⟩
      rfl (by decide) rfl⟩

/-! ## Claim C1: total accounting -/

/-- Instrumentation of `apply_operation`: the contribution of one operation,
in pre-state `s`, to (applied deposits, applied withdrawals, charged-back
amounts).  Each component is nonzero exactly when the corresponding branch
of `ClientState::apply_operation` mutates the balances. -/
def appliedDeltas (s : ClientState) (op : Operation) : Int × Int × Int :=
  if s.status = ClientStatus.Frozen then (0, 0, 0)
  else
    match op.type_ with
    | OperationType.Deposit => (op.amount, 0, 0)
    | OperationType.Withdrawal =>
      if op.amount ≤ s.available then (0, op.amount, 0) else (0, 0, 0)
    | OperationType.Dispute => (0, 0, 0)
    | OperationType.Resolve => (0, 0, 0)
    | OperationType.Chargeback =>
      match lookupTx s.transactions op.tx_id with
      | some tx =>
        if tx.status = TransactionStatus.Disputed then (0, 0, tx.operation.amount)
        else (0, 0, 0)
      | none => (0, 0, 0)

/-- Running totals of applied deposit amounts, applied withdrawal amounts and
charged-back amounts along a run. -/
def ledgerTotals : ClientState → List Operation → Int × Int × Int
  | _, [] => (0, 0, 0)
  | s, op :: rest =>
    let d := appliedDeltas s op
    let r := ledgerTotals (s.apply_operation op) rest
    (d.1 + r.1, d.2.1 + r.2.1, d.2.2 + r.2.2)

theorem apply_total_delta (s : ClientState) (op : Operation) :
    (s.apply_operation op).available + (s.apply_operation op).held =
      s.available + s.held + (appliedDeltas s op).1
        - (appliedDeltas s op).2.1 - (appliedDeltas s op).2.2 := by
  obtain ⟨ty, cl, tx, am⟩ := op
  by_cases hf : s.status = ClientStatus.Frozen
  · simp [ClientState.apply_operation, appliedDeltas, hf]
  · cases ty with
    | Deposit =>
      simp [ClientState.apply_operation, appliedDeltas, hf]
      omega
    | Withdrawal =>
      by_cases hw : am ≤ s.available <;>
        simp [ClientState.apply_operation, appliedDeltas, hf, hw] <;> omega
    | Dispute =>
      cases h : lookupTx s.transactions tx with
      | none => simp [ClientState.apply_operation, appliedDeltas, hf, h]
      | some t =>
        by_cases hd : t.status = TransactionStatus.Disputed <;>
          simp [ClientState.apply_operation, appliedDeltas, hf, h, hd]
    | Resolve =>
      cases h : lookupTx s.transactions tx with
      | none => simp [ClientState.apply_operation, appliedDeltas, hf, h]
      | some t =>
        by_cases hd : t.status = TransactionStatus.Disputed <;>
          simp [ClientState.apply_operation, appliedDeltas, hf, h, hd]
    | Chargeback =>
      cases h : lookupTx s.transactions tx with
      | none => simp [ClientState.apply_operation, appliedDeltas, hf, h]
      | some t =>
        by_cases hd : t.status = TransactionStatus.Disputed <;>
          simp [ClientState.apply_operation, appliedDeltas, hf, h, hd] <;> omega

theorem runLedger_total (s : ClientState) (ops : List Operation) :
    (runLedger s ops).available + (runLedger s ops).held =
      s.available + s.held + (ledgerTotals s ops).1 - (ledgerTotals s ops).2.1
        - (ledgerTotals s ops).2.2 := by
  induction ops generalizing s with
  | nil => simp [runLedger, ledgerTotals]
  | cons op rest ih =>
    rw [show runLedger s (op :: rest) = runLedger (s.apply_operation op) rest from rfl]
    have h1 := apply_total_delta s op
    have h2 := ih (s.apply_operation op)
    simp only [ledgerTotals]
    omega

/-- Claim C1: along any run from a fresh client state,
`available + held` equals the sum of applied deposit amounts minus applied
withdrawal amounts minus charged-back amounts; and `Dispute` and `Resolve`
never change `available + held`. -/
theorem claim_C1 :
    (∀ (c : Nat) (ops : List Operation),
      (runLedger (ClientState.new c) ops).available
          + (runLedger (ClientState.new c) ops).held =
        (ledgerTotals (ClientState.new c) ops).1
          - (ledgerTotals (ClientState.new c) ops).2.1
          - (ledgerTotals (ClientState.new c) ops).2.2) ∧
    (∀ (s : ClientState) (cl tx : Nat) (am : Int),
      (s.apply_operation ⟨OperationType.Dispute, cl, tx, am⟩).available
          + (s.apply_operation ⟨OperationType.Dispute, cl, tx, am⟩).held
        = s.available + s.held) ∧
    (∀ (s : ClientState) (cl tx : Nat) (am : Int),
      (s.apply_operation ⟨OperationType.Resolve, cl, tx, am⟩).available
          + (s.apply_operation ⟨OperationType.Resolve, cl, tx, am⟩).held
        = s.available + s.held) := by
  refine ⟨fun c ops => ?_, fun s cl tx am => ?_, fun s cl tx am => ?_⟩
  · have h := runLedger_total (ClientState.new c) ops
    have h0a : (ClientState.new c).available = 0 := rfl
    have h0h : (ClientState.new c).held = 0 := rfl
    omega
  · have h := apply_total_delta s ⟨OperationType.Dispute, cl, tx, am⟩
    simp only [appliedDeltas, ite_self] at h
    omega
  · have h := apply_total_delta s ⟨OperationType.Resolve, cl, tx, am⟩
    simp only [appliedDeltas, ite_self] at h
    omega

/-! ## Claim C9: sign of `held` -/

/-- The contribution of one stored transaction to the held balance:
its amount while it is under dispute, zero otherwise. -/
def disputedContribution (t : Transaction) : Int :=
  if t.status = TransactionStatus.Disputed then t.operation.amount else 0

/-- Sum of the amounts of all currently disputed stored transactions. -/
def disputedSum (txs : List (Nat × Transaction)) : Int :=
  txs.foldr (fun p acc => disputedContribution p.2 + acc) 0

theorem disputedSum_nonneg {txs : List (Nat × Transaction)}
    (h : ∀ p ∈ txs, 0 ≤ p.2.operation.amount) : 0 ≤ disputedSum txs := by
  induction txs with
  | nil => simp [disputedSum]
  | cons p rest ih =>
    have hp : 0 ≤ disputedContribution p.2 := by
      unfold disputedContribution
      split
      · exact h p (List.mem_cons_self p rest)
      · omega
    have hr : 0 ≤ disputedSum rest := ih (fun q hq => h q (List.mem_cons_of_mem p hq))
    simp only [disputedSum, List.foldr_cons] at hp hr ⊢
    omega

theorem disputedSum_modifyTx {txs : List (Nat × Transaction)} {key : Nat}
    {t : Transaction} (f : Transaction → Transaction)
    (h : lookupTx txs key = some t) :
    disputedSum (modifyTx txs key f) =
      disputedSum txs - disputedContribution t + disputedContribution (f t) := by
  induction txs with
  | nil => simp [lookupTx] at h
  | cons p rest ih =>
    obtain ⟨k, u⟩ := p
    by_cases hk : k = key
    · subst hk
      simp only [lookupTx, if_pos rfl] at h
      cases h
      simp only [modifyTx, eq_self_iff_true, if_true, disputedSum, List.foldr_cons]
      omega
    · simp only [lookupTx, if_neg hk] at h
      simp only [modifyTx, if_neg hk, disputedSum, List.foldr_cons]
      have := ih h
      simp only [disputedSum] at this
      omega

theorem disputedSum_append (a b : List (Nat × Transaction)) :
    disputedSum (a ++ b) = disputedSum a + disputedSum b := by
  induction a with
  | nil => simp [disputedSum]
  | cons p rest ih =>
    simp only [disputedSum, List.cons_append, List.foldr_cons] at ih ⊢
    omega

theorem mem_modifyTx {p : Nat × Transaction} {txs : List (Nat × Transaction)}
    {key : Nat} {f : Transaction → Transaction} (hp : p ∈ modifyTx txs key f) :
    p ∈ txs ∨ ∃ t, lookupTx txs key = some t ∧ p = (key, f t) := by
  induction txs with
  | nil => simp [modifyTx] at hp
  | cons q rest ih =>
    obtain ⟨k, u⟩ := q
    by_cases hk : k = key
    · subst hk
      simp only [modifyTx, if_pos rfl] at hp
      rcases List.mem_cons.mp hp with h | h
      · exact Or.inr ⟨u, by simp [lookupTx], h⟩
      · exact Or.inl (List.mem_cons_of_mem _ h)
    · simp only [modifyTx, if_neg hk] at hp
      rcases List.mem_cons.mp hp with h | h
      · exact Or.inl (by simp [h])
      · rcases ih h with h' | ⟨t, ht, hpt⟩
        · exact Or.inl (List.mem_cons_of_mem _ h')
        · exact Or.inr ⟨t, by simp [lookupTx, hk, ht], hpt⟩

theorem mem_insertTx {p : Nat × Transaction} {txs : List (Nat × Transaction)}
    {key : Nat} {v : Transaction} (hp : p ∈ insertTx txs key v) :
    p ∈ txs ∨ p = (key, v) := by
  unfold insertTx at hp
  split at hp
  · rcases mem_modifyTx hp with h | ⟨t, _, hpt⟩
    · exact Or.inl h
    · exact Or.inr hpt
  · rcases List.mem_append.mp hp with h | h
    · exact Or.inl h
    · exact Or.inr (List.mem_singleton.mp h)

/-- The inductive invariant behind `held ≥ 0`: all stored amounts are
nonnegative and `held` is at least the sum of the disputed amounts. -/
def heldInv (s : ClientState) : Prop :=
  (∀ p ∈ s.transactions, 0 ≤ p.2.operation.amount) ∧
    disputedSum s.transactions ≤ s.held

theorem heldInv_apply {s : ClientState} (op : Operation) (hInv : heldInv s)
    (hop : 0 ≤ op.amount) : heldInv (s.apply_operation op) := by
  obtain ⟨hamts, hheld⟩ := hInv
  obtain ⟨ty, cl, tx, am⟩ := op
  simp only at hop
  by_cases hf : s.status = ClientStatus.Frozen
  · simp only [ClientState.apply_operation, hf, if_true]
    exact ⟨hamts, hheld⟩
  · cases ty with
    | Deposit =>
      simp only [ClientState.apply_operation, hf, if_false]
      refine ⟨fun p hp => ?_, ?_⟩
      · rcases mem_insertTx hp with h | h
        · exact hamts p h
        · rw [h]
          exact hop
      · show disputedSum (insertTx s.transactions tx _) ≤ s.held
        unfold insertTx
        split
        · rename_i hsome
          obtain ⟨t, ht⟩ := Option.isSome_iff_exists.mp hsome
          rw [disputedSum_modifyTx _ ht]
          have hc0 : disputedContribution
              ⟨⟨OperationType.Deposit, cl, tx, am⟩, TransactionStatus.Normal⟩ = 0 := rfl
          have ht0 : 0 ≤ t.operation.amount := hamts _ (lookupTx_mem ht)
          have htc : 0 ≤ disputedContribution t := by
            unfold disputedContribution
            split <;> omega
          omega
        · rw [disputedSum_append]
          have : disputedSum
              [(tx, ⟨⟨OperationType.Deposit, cl, tx, am⟩, TransactionStatus.Normal⟩)] = 0 := rfl
          omega
    | Withdrawal =>
      by_cases hw : am ≤ s.available
      · simp only [ClientState.apply_operation, hf, if_false, hw, if_true, ite_true]
        exact ⟨hamts, hheld⟩
      · simp only [ClientState.apply_operation, hf, if_false, hw, if_false, ite_false]
        exact ⟨hamts, hheld⟩
    | Dispute =>
      cases hl : lookupTx s.transactions tx with
      | none =>
        simp only [ClientState.apply_operation, hf, if_false, hl]
        exact ⟨hamts, hheld⟩
      | some t =>
        by_cases hd : t.status = TransactionStatus.Disputed
        · simp only [ClientState.apply_operation, hf, if_false, hl, hd, ne_eq,
            not_true_eq_false, if_false, ite_false]
          exact ⟨hamts, hheld⟩
        · simp only [ClientState.apply_operation, hf, if_false, hl, ne_eq, hd,
            not_false_eq_true, if_true, ite_true]
          refine ⟨fun p hp => ?_, ?_⟩
          · rcases mem_modifyTx hp with h | ⟨u, hu, hpu⟩
            · exact hamts p h
            · rw [hpu]
              exact hamts (tx, u) (lookupTx_mem hu)
          · show disputedSum _ ≤ s.held + t.operation.amount
            rw [disputedSum_modifyTx _ hl]
            have hc1 : disputedContribution t = 0 := by
              simp [disputedContribution, hd]
            have hc2 : disputedContribution
                { t with status := TransactionStatus.Disputed } = t.operation.amount := rfl
            omega
    | Resolve =>
      cases hl : lookupTx s.transactions tx with
      | none =>
        simp only [ClientState.apply_operation, hf, if_false, hl]
        exact ⟨hamts, hheld⟩
      | some t =>
        by_cases hd : t.status = TransactionStatus.Disputed
        · simp only [ClientState.apply_operation, hf, if_false, hl, hd, if_true, ite_true]
          refine ⟨fun p hp => ?_, ?_⟩
          · rcases mem_modifyTx hp with h | ⟨u, hu, hpu⟩
            · exact hamts p h
            · rw [hpu]
              exact hamts (tx, u) (lookupTx_mem hu)
          · show disputedSum _ ≤ s.held - t.operation.amount
            rw [disputedSum_modifyTx _ hl]
            have hc1 : disputedContribution t = t.operation.amount := by
              simp [disputedContribution, hd]
            have hc2 : disputedContribution
                { t with status := TransactionStatus.Normal } = 0 := rfl
            omega
        · simp only [ClientState.apply_operation, hf, if_false, hl, hd, if_false, ite_false]
          exact ⟨hamts, hheld⟩
    | Chargeback =>
      cases hl : lookupTx s.transactions tx with
      | none =>
        simp only [ClientState.apply_operation, hf, if_false, hl]
        exact ⟨hamts, hheld⟩
      | some t =>
        by_cases hd : t.status = TransactionStatus.Disputed
        · simp only [ClientState.apply_operation, hf, if_false, hl, hd, if_true, ite_true]
          refine ⟨fun p hp => ?_, ?_⟩
          · rcases mem_modifyTx hp with h | ⟨u, hu, hpu⟩
            · exact hamts p h
            · rw [hpu]
              exact hamts (tx, u) (lookupTx_mem hu)
          · show disputedSum _ ≤ s.held - t.operation.amount
            rw [disputedSum_modifyTx _ hl]
            have hc1 : disputedContribution t = t.operation.amount := by
              simp [disputedContribution, hd]
            have hc2 : disputedContribution
                { t with status := TransactionStatus.Normal } = 0 := rfl
            omega
        · simp only [ClientState.apply_operation, hf, if_false, hl, hd, if_false, ite_false]
          exact ⟨hamts, hheld⟩

theorem heldInv_runLedger {s : ClientState} {ops : List Operation} (hInv : heldInv s)
    (h : ∀ op ∈ ops, 0 ≤ op.amount) : heldInv (runLedger s ops) := by
  induction ops generalizing s with
  | nil => exact hInv
  | cons op rest ih =>
    rw [show runLedger s (op :: rest) = runLedger (s.apply_operation op) rest from rfl]
    exact ih (heldInv_apply op hInv (h op (List.mem_cons_self op rest)))
      (fun q hq => h q (List.mem_cons_of_mem op hq))

theorem runLedger_held_nonneg (c : Nat) (ops : List Operation)
    (h : ∀ op ∈ ops, 0 ≤ op.amount) :
    0 ≤ (runLedger (ClientState.new c) ops).held := by
  have hInv : heldInv (runLedger (ClientState.new c) ops) :=
    heldInv_runLedger ⟨by simp [ClientState.new], by simp [ClientState.new, disputedSum]⟩ h
  obtain ⟨hamts, hheld⟩ := hInv
  have := disputedSum_nonneg hamts
  omega

/-- Claim C9 counterexample (negation of the claim): no finite sequence of
operations with nonnegative amounts, applied to a fresh client state, can
drive `held` negative — `held ≥ 0` is in fact an invariant of the code. -/
theorem claim_C9_counterexample :
    ¬ ∃ (c : Nat) (ops : List Operation),
        (∀ op ∈ ops, 0 ≤ op.amount) ∧ (runLedger (ClientState.new c) ops).held < 0 := by
  rintro ⟨c, ops, hnn, hneg⟩
  have := runLedger_held_nonneg c ops hnn
  omega

/-- Claim C9 as amended: for operations with nonnegative amounts (as the
parser produces) `held ≥ 0` IS guaranteed on every run from a fresh client;
it is `available` that can go negative, by disputing a deposit whose funds
were already withdrawn. -/
theorem claim_C9_amended :
    (∀ (c : Nat) (ops : List Operation), (∀ op ∈ ops, 0 ≤ op.amount) →
      0 ≤ (runLedger (ClientState.new c) ops).held) ∧
    (runLedger (ClientState.new 0)
        [⟨OperationType.Deposit, 0, 1, 50000⟩,
         ⟨OperationType.Withdrawal, 0, 2, 50000⟩,
         ⟨OperationType.Dispute, 0, 1, 0⟩]).available < 0 :=
  ⟨fun c ops h => runLedger_held_nonneg c ops h, by decide⟩

theorem claim_C9_witness :
    (∀ op ∈ [(⟨OperationType.Deposit, 0, 1, 50000⟩ : Operation),
        ⟨OperationType.Dispute, 0, 1, 0⟩], 0 ≤ op.amount) ∧
    0 ≤ (runLedger (ClientState.new 0)
        [⟨OperationType.Deposit, 0, 1, 50000⟩,
         ⟨OperationType.Dispute, 0, 1, 0⟩]).held :=
  ⟨by decide, claim_C9_amended.1 0 _ (by decide)⟩

/-! ## Claim C10: the transactions map only grows -/

theorem lookupTx_append (a b : List (Nat × Transaction)) (k : Nat) :
    lookupTx (a ++ b) k =
      if (lookupTx a k).isSome then lookupTx a k else lookupTx b k := by
  induction a with
  | nil => simp [lookupTx]
  | cons p rest ih =>
    obtain ⟨k', u⟩ := p
    by_cases hk : k' = k
    · simp [lookupTx, hk]
    · simp [lookupTx, hk, ih]

theorem lookupTx_insertTx (txs : List (Nat × Transaction)) (key k : Nat)
    (v : Transaction) :
    lookupTx (insertTx txs key v) k = if k = key then some v else lookupTx txs k := by
  unfold insertTx
  split
  · rename_i h
    obtain ⟨t, ht⟩ := Option.isSome_iff_exists.mp h
    rw [lookupTx_modifyTx]
    by_cases hk : k = key
    · subst hk
      simp [ht]
    · simp [hk]
  · rename_i h
    rw [lookupTx_append]
    by_cases hk : k = key
    · subst hk
      simp only [Option.not_isSome_iff_eq_none] at h
      simp [h, lookupTx]
    · by_cases hs : (lookupTx txs k).isSome
      · simp [hs, hk]
      · simp only [Option.not_isSome_iff_eq_none] at hs
        simp [hs, lookupTx, hk]
        exact fun hh => hk hh.symm

/-- The transactions map after one operation is either unchanged, or the
result of a `Deposit` insert at `op.tx_id`, or an in-place status-only
mutation at `op.tx_id`. -/
theorem transactions_apply_shape (s : ClientState) (op : Operation) :
    (s.apply_operation op).transactions = s.transactions ∨
    (op.type_ = OperationType.Deposit ∧
      (s.apply_operation op).transactions =
        insertTx s.transactions op.tx_id ⟨op, TransactionStatus.Normal⟩) ∨
    (∃ f : Transaction → Transaction, (∀ t, (f t).operation = t.operation) ∧
      (s.apply_operation op).transactions = modifyTx s.transactions op.tx_id f) := by
  obtain ⟨ty, cl, tx, am⟩ := op
  by_cases hf : s.status = ClientStatus.Frozen
  · exact Or.inl (by simp [ClientState.apply_operation, hf])
  · cases ty with
    | Deposit =>
      exact Or.inr (Or.inl ⟨rfl, by simp [ClientState.apply_operation, hf]⟩)
    | Withdrawal =>
      by_cases hw : am ≤ s.available
      · exact Or.inl (by simp [ClientState.apply_operation, hf, hw])
      · exact Or.inl (by simp [ClientState.apply_operation, hf, hw])
    | Dispute =>
      cases hl : lookupTx s.transactions tx with
      | none => exact Or.inl (by simp [ClientState.apply_operation, hf, hl])
      | some t =>
        by_cases hd : t.status = TransactionStatus.Disputed
        · exact Or.inl (by simp [ClientState.apply_operation, hf, hl, hd])
        · refine Or.inr (Or.inr ⟨fun u => { u with status := TransactionStatus.Disputed },
            fun u => rfl, ?_⟩)
          simp [ClientState.apply_operation, hf, hl, hd]
    | Resolve =>
      cases hl : lookupTx s.transactions tx with
      | none => exact Or.inl (by simp [ClientState.apply_operation, hf, hl])
      | some t =>
        by_cases hd : t.status = TransactionStatus.Disputed
        · refine Or.inr (Or.inr ⟨fun u => { u with status := TransactionStatus.Normal },
            fun u => rfl, ?_⟩)
          simp [ClientState.apply_operation, hf, hl, hd]
        · exact Or.inl (by simp [ClientState.apply_operation, hf, hl, hd])
    | Chargeback =>
      cases hl : lookupTx s.transactions tx with
      | none => exact Or.inl (by simp [ClientState.apply_operation, hf, hl])
      | some t =>
        by_cases hd : t.status = TransactionStatus.Disputed
        · refine Or.inr (Or.inr ⟨fun u => { u with status := TransactionStatus.Normal },
            fun u => rfl, ?_⟩)
          simp [ClientState.apply_operation, hf, hl, hd]
        · exact Or.inl (by simp [ClientState.apply_operation, hf, hl, hd])

theorem lookupTx_apply_isSome (s : ClientState) (op : Operation) (k : Nat)
    (h : (lookupTx s.transactions k).isSome) :
    (lookupTx (s.apply_operation op).transactions k).isSome := by
  rcases transactions_apply_shape s op with hsame | ⟨_, hins⟩ | ⟨f, _, hmod⟩
  · rw [hsame]
    exact h
  · rw [hins, lookupTx_insertTx]
    split
    · rfl
    · exact h
  · rw [hmod, lookupTx_modifyTx]
    split
    · rename_i hk
      subst hk
      simp_all
    · exact h

theorem lookupTx_runLedger_isSome (s : ClientState) (ops : List Operation) (k : Nat)
    (h : (lookupTx s.transactions k).isSome) :
    (lookupTx (runLedger s ops).transactions k).isSome := by
  induction ops generalizing s with
  | nil => exact h
  | cons op rest ih =>
    rw [show runLedger s (op :: rest) = runLedger (s.apply_operation op) rest from rfl]
    exact ih _ (lookupTx_apply_isSome s op k h)

theorem retained_are_deposits (s : ClientState) (ops : List Operation)
    (h : ∀ k t, lookupTx s.transactions k = some t →
      t.operation.type_ = OperationType.Deposit) :
    ∀ k t, lookupTx (runLedger s ops).transactions k = some t →
      t.operation.type_ = OperationType.Deposit := by
  induction ops generalizing s with
  | nil => exact h
  | cons op rest ih =>
    rw [show runLedger s (op :: rest) = runLedger (s.apply_operation op) rest from rfl]
    refine ih _ (fun k t hk => ?_)
    rcases transactions_apply_shape s op with hsame | ⟨hdep, hins⟩ | ⟨f, hop, hmod⟩
    · rw [hsame] at hk
      exact h k t hk
    · rw [hins, lookupTx_insertTx] at hk
      split at hk
      · cases hk
        exact hdep
      · exact h k t hk
    · rw [hmod, lookupTx_modifyTx] at hk
      split at hk
      · rcases hu : lookupTx s.transactions op.tx_id with _ | u
        · rw [hu] at hk
          simp at hk
        · rw [hu] at hk
          simp only [Option.map_some'] at hk
          cases hk
          rw [hop u]
          exact h _ u hu
      · exact h k t hk

/-- Claim C10: `apply_operation` never removes a transactions-map entry;
only `Deposit` inserts (at its own `tx_id`, overwriting a duplicate), every
other operation at most mutates the status of an existing entry; the set of
retained ids grows monotonically along any run; every retained transaction
is a Deposit; and a charged-back transaction stays in the map with status
`Normal`. -/
theorem claim_C10 :
    (∀ (s : ClientState) (op : Operation) (k : Nat),
      (lookupTx s.transactions k).isSome →
        (lookupTx (s.apply_operation op).transactions k).isSome) ∧
    (∀ (s : ClientState) (op : Operation) (k : Nat) (u : Transaction),
      op.type_ ≠ OperationType.Deposit →
      lookupTx (s.apply_operation op).transactions k = some u →
        ∃ t, lookupTx s.transactions k = some t ∧ u.operation = t.operation) ∧
    (∀ (s : ClientState) (op : Operation) (k : Nat) (u : Transaction),
      lookupTx (s.apply_operation op).transactions k = some u →
        (lookupTx s.transactions k).isSome ∨
          (op.type_ = OperationType.Deposit ∧ k = op.tx_id)) ∧
    (∀ (s : ClientState) (op : Operation),
      op.type_ = OperationType.Deposit → s.status ≠ ClientStatus.Frozen →
        lookupTx (s.apply_operation op).transactions op.tx_id =
          some ⟨op, TransactionStatus.Normal⟩) ∧
    (∀ (s : ClientState) (ops : List Operation) (k : Nat),
      (lookupTx s.transactions k).isSome →
        (lookupTx (runLedger s ops).transactions k).isSome) ∧
    (∀ (c : Nat) (ops : List Operation) (k : Nat) (t : Transaction),
      lookupTx (runLedger (ClientState.new c) ops).transactions k = some t →
        t.operation.type_ = OperationType.Deposit) ∧
    (∀ (s : ClientState) (op : Operation) (t : Transaction),
      s.status = ClientStatus.Normal → op.type_ = OperationType.Chargeback →
      lookupTx s.transactions op.tx_id = some t →
      t.status = TransactionStatus.Disputed →
        lookupTx (s.apply_operation op).transactions op.tx_id =
          some ⟨t.operation, TransactionStatus.Normal⟩) := by
  refine ⟨lookupTx_apply_isSome, ?_, ?_, ?_, lookupTx_runLedger_isSome, ?_, ?_⟩
  · intro s op k u hnd h
    rcases transactions_apply_shape s op with hsame | ⟨hdep, _⟩ | ⟨f, hop, hmod⟩
    · rw [hsame] at h
      exact ⟨u, h, rfl⟩
    · exact absurd hdep hnd
    · rw [hmod, lookupTx_modifyTx] at h
      split at h
      · rename_i hk
        rcases hw : lookupTx s.transactions op.tx_id with _ | w
        · rw [hw] at h
          simp at h
        · rw [hw] at h
          simp only [Option.map_some'] at h
          cases h
          exact ⟨w, hk ▸ hw, hop w⟩
      · exact ⟨u, h, rfl⟩
  · intro s op k u h
    rcases transactions_apply_shape s op with hsame | ⟨hdep, hins⟩ | ⟨f, _, hmod⟩
    · rw [hsame] at h
      exact Or.inl (by simp [h])
    · rw [hins, lookupTx_insertTx] at h
      split at h
      · rename_i hk
        exact Or.inr ⟨hdep, hk⟩
      · exact Or.inl (by simp [h])
    · rw [hmod, lookupTx_modifyTx] at h
      split at h
      · rename_i hk
        subst hk
        rcases hw : lookupTx s.transactions op.tx_id with _ | w
        · rw [hw] at h
          simp at h
        · exact Or.inl (by simp [hw])
      · exact Or.inl (by simp [h])
  · intro s op hdep hfr
    obtain ⟨ty, cl, tx, am⟩ := op
    simp only at hdep
    subst hdep
    simp only [ClientState.apply_operation, hfr, if_false, ite_false]
    rw [lookupTx_insertTx]
    simp
  · intro c ops k t h
    exact retained_are_deposits (ClientState.new c) ops
      (fun k' t' h' => by simp [ClientState.new, lookupTx] at h') k t h
  · intro s op t hs hcb hl hd
    obtain ⟨ty, cl, tx, am⟩ := op
    simp only at hcb hl ⊢
    subst hcb
    have hfr : ¬s.status = ClientStatus.Frozen := by
      rw [hs]
      exact fun h => by cases h
    simp only [ClientState.apply_operation, hfr, if_false, ite_false, hl, hd, if_true,
      ite_true]
    rw [lookupTx_modifyTx]
    simp [hl]

theorem claim_C10_witness :
    (⟨0, 10000, 10000, ClientStatus.Normal,
        [(1, ⟨⟨OperationType.Deposit, 0, 1, 10000⟩, TransactionStatus.Disputed⟩)]⟩ :
      ClientState).status = ClientStatus.Normal ∧
    (⟨OperationType.Chargeback, 0, 1, 0⟩ : Operation).type_ = OperationType.Chargeback ∧
    lookupTx [(1, ⟨⟨OperationType.Deposit, 0, 1, 10000⟩, TransactionStatus.Disputed⟩)] 1 =
      some ⟨⟨OperationType.Deposit, 0, 1, 10000⟩, TransactionStatus.Disputed⟩ ∧
    lookupTx (ClientState.apply_operation
        ⟨0, 10000, 10000, ClientStatus.Normal,
          [(1, ⟨⟨OperationType.Deposit, 0, 1, 10000⟩, TransactionStatus.Disputed⟩)]⟩
        ⟨OperationType.Chargeback, 0, 1, 0⟩).transactions 1 =
      some ⟨⟨OperationType.Deposit, 0, 1, 10000⟩, TransactionStatus.Normal⟩ :=
  ⟨rfl, rfl, by decide,
    claim_C10.2.2.2.2.2.2 _ _
      ⟨⟨OperationType.Deposit, 0, 1, 10000⟩, TransactionStatus.Disputed⟩
      rfl rfl (by decide) rfl⟩

/-! ## Claim C3: batch-size independence of the pipeline -/

/-- Splitting a list into consecutive chunks of `n + 1` elements, the shape
in which `read_num_lines` batches the input rows. -/
def chunksOfAux (n : Nat) : List α → List (List α)
  | [] => []
  | a :: rest => (a :: rest.take n) :: chunksOfAux n (rest.drop n)
termination_by l => l.length
decreasing_by
  simp only [List.length_drop, List.length_cons]
  omega

/-- Consecutive batches of `n` rows (meaningful for `n ≥ 1`). -/
def chunksOf (n : Nat) (l : List α) : List (List α) := chunksOfAux (n - 1) l

/-- The operations routed to client `c` by `split_into_client_operations`,
in input order (src/lib.rs, lines 98-110). -/
def client_operations (c : Nat) (ops : List Operation) : List Operation :=
  ops.filter (fun op => op.client == c)

/-- Final state of client `c` when the input is processed in consecutive
batches of `n` rows: each batch is partitioned by client and applied on top
of that client's state from the previous batch, as `spawn_for_each_client`
chains the per-client futures (src/lib.rs, lines 112-138). -/
def runBatched (n : Nat) (ops : List Operation) (c : Nat) : ClientState :=
  (chunksOf n ops).foldl (fun s batch => runLedger s (client_operations c batch))
    (ClientState.new c)

theorem runLedger_append (s : ClientState) (a b : List Operation) :
    runLedger s (a ++ b) = runLedger (runLedger s a) b := by
  simp [runLedger, List.foldl_append]

theorem client_operations_append (c : Nat) (a b : List Operation) :
    client_operations c (a ++ b) = client_operations c a ++ client_operations c b := by
  simp [client_operations, List.filter_append]

theorem foldl_chunksOfAux (c m : Nat) (l : List Operation) :
    ∀ s : ClientState,
      (chunksOfAux m l).foldl (fun s batch => runLedger s (client_operations c batch)) s
        = runLedger s (client_operations c l) := by
  induction l using chunksOfAux.induct m with
  | case1 =>
    intro s
    simp [chunksOfAux, client_operations, runLedger]
  | case2 a rest ih =>
    intro s
    rw [chunksOfAux]
    simp only [List.foldl_cons]
    rw [ih]
    rw [← runLedger_append, ← client_operations_append]
    rw [show (a :: rest.take m) ++ rest.drop m = a :: (rest.take m ++ rest.drop m)
      from rfl]
    rw [List.take_append_drop]

theorem runBatched_eq_filter (n : Nat) (ops : List Operation) (c : Nat) :
    runBatched n ops c = runLedger (ClientState.new c) (client_operations c ops) :=
  foldl_chunksOfAux c (n - 1) ops (ClientState.new c)

/-- Claim C3: the batched pipeline computes, for every client, the same
final state for any two batch sizes `N₁, N₂ ≥ 1`, and both equal the plain
sequential fold of that client's operations in input order. -/
theorem claim_C3 (n₁ n₂ : Nat) (_h₁ : 1 ≤ n₁) (_h₂ : 1 ≤ n₂)
    (ops : List Operation) (c : Nat) :
    runBatched n₁ ops c = runBatched n₂ ops c ∧
    runBatched n₁ ops c = runLedger (ClientState.new c) (client_operations c ops) := by
  rw [runBatched_eq_filter n₁ ops c, runBatched_eq_filter n₂ ops c]
  exact ⟨rfl, rfl⟩

theorem claim_C3_witness :
    1 ≤ 1 ∧ 1 ≤ 3 ∧
    (runBatched 1
        [⟨OperationType.Deposit, 0, 1, 10000⟩,
         ⟨OperationType.Deposit, 1, 2, 20000⟩,
         ⟨OperationType.Withdrawal, 0, 3, 5000⟩] 0 =
      runBatched 3
        [⟨OperationType.Deposit, 0, 1, 10000⟩,
         ⟨OperationType.Deposit, 1, 2, 20000⟩,
         ⟨OperationType.Withdrawal, 0, 3, 5000⟩] 0) :=
  ⟨le_refl 1, by omega,
    (claim_C3 1 3 (le_refl 1) (by omega)
      [⟨OperationType.Deposit, 0, 1, 10000⟩,
       ⟨OperationType.Deposit, 1, 2, 20000⟩,
       ⟨OperationType.Withdrawal, 0, 3, 5000⟩] 0).1⟩

/-! ## Claim C5: the amount parser -/

/-- Claim C5 counterexample: the parser accepts `"0.00001"` (five
fractional digits) with value 1, and `"1.2.3"` (splitting on every dot,
ignoring the third piece) with value 12000, while the claim's description
(split on the first dot, more than 4 fractional digits always fail)
rejects both. -/
theorem claim_C5_counterexample :
    deserialize_amount "0.00001" = some 1 ∧
    claimedAmountParse "0.00001" = none ∧
    deserialize_amount "1.2.3" = some 12000 ∧
    claimedAmountParse "1.2.3" = none := by
  refine ⟨by decide, by decide, by decide, by decide⟩

/-- Claim C5 as amended: the parser splits on EVERY `'.'`; the first piece
is parsed as an unsigned 32-bit decimal (so negative inputs are rejected)
and scaled by 10000; a second piece, when present, is right-padded with
`'0'` to at least 4 characters and parsed as an unsigned 16-bit decimal and
added, and pieces after the second are ignored; a fractional piece fails
exactly when its padded form fails the `u16` parse (five digits above
65535, or a non-digit), so some inputs with more than 4 fractional digits
do parse. -/
theorem claim_C5_amended (s : String) : deserialize_amount s = amendedAmountParse s := by
  rcases h : splitOnDot s.data with _ | ⟨ipart, rest2⟩
  · simp [deserialize_amount, amendedAmountParse, h]
  · rcases rest2 with _ | ⟨fpart, rest⟩
    · simp only [deserialize_amount, amendedAmountParse, h]
      rcases hpi : parseUnsignedChars 4294967296 ipart with _ | vi <;> simp [hpi]
    · simp only [deserialize_amount, amendedAmountParse, h]
      rcases hpi : parseUnsignedChars 4294967296 ipart with _ | vi <;>
        rcases hpf : parseUnsignedChars 65536 (padZeroRight4 fpart) with _ | vf <;>
          simp [hpi, hpf]

/-! ## Claim C6: the amount formatter -/

theorem toString_int_neg_head {v : Int} (h : v < 0) :
    (toString v).data.head? = some '-' := by
  obtain ⟨m, rfl⟩ : ∃ m, v = Int.negSucc m := by
    cases v with
    | ofNat n => exact absurd h (not_lt.mpr (Int.ofNat_nonneg n))
    | negSucc m => exact ⟨m, rfl⟩
  rw [show toString (Int.negSucc m) = "-" ++ Nat.repr (m + 1) from rfl,
    String.data_append]
  rfl

/-- Claim C6 counterexample: `-5` is negative but formats as `"0.5"`,
with no leading `'-'` (the truncated integer part is 0). -/
theorem claim_C6_counterexample :
    serialize_fractional (-5) = "0.5" ∧ ((-5 : Int) < 0) ∧
      ¬ (serialize_fractional (-5)).data.head? = some '-' := by
  refine ⟨by decide, by decide, by decide⟩

/-- Claim C6 as amended: the formatter emits the truncated quotient, a dot,
and the absolute remainder, with no zero-padding and the sign carried by
the integer part only — hence a negative value prints a leading `'-'` only
when it is at most `-10000`; negative values above `-10000` print a leading
`'0'` (their integer part truncates to 0).  The claim's examples hold. -/
theorem claim_C6_amended :
    (∀ v : Int, v ≤ -10000 → (serialize_fractional v).data.head? = some '-') ∧
    (∀ v : Int, -10000 < v → v < 0 → (serialize_fractional v).data.head? = some '0') ∧
    serialize_fractional 10000 = "1.0" ∧
    serialize_fractional 12340 = "1.2340" ∧
    serialize_fractional (-555000) = "-55.5000" := by
  refine ⟨?_, ?_, by decide, by decide, by decide⟩
  · intro v hv
    have hq : Int.tdiv v 10000 < 0 := by
      have hv' : (0 : Int) ≤ -v := by omega
      have h1 : (1 : Int) ≤ (-v) / 10000 :=
        (Int.le_ediv_iff_mul_le (by omega)).mpr (by omega)
      have h2 : (-v).tdiv 10000 = (-v) / 10000 := Int.tdiv_eq_ediv hv' (by omega)
      have h3 : Int.tdiv v 10000 = -((-v).tdiv 10000) := by
        conv_lhs => rw [show v = -(-v) from by omega]
        rw [Int.neg_tdiv]
      omega
    obtain ⟨cs, hcs⟩ : ∃ cs, (toString (Int.tdiv v 10000)).data = '-' :: cs := by
      have hh := toString_int_neg_head hq
      cases hd : (toString (Int.tdiv v 10000)).data with
      | nil =>
        rw [hd] at hh
        simp at hh
      | cons a l =>
        rw [hd] at hh
        simp only [List.head?_cons, Option.some.injEq] at hh
        exact ⟨l, by rw [hh]⟩
    unfold serialize_fractional
    rw [String.data_append, String.data_append, hcs]
    rfl
  · intro v h1 h2
    have hq : Int.tdiv v 10000 = 0 := by
      have hna : ((Int.natAbs v : Nat) : Int) = -v := Int.ofNat_natAbs_of_nonpos (by omega)
      have h3 : Int.tdiv v 10000 = -((Int.natAbs v : Int).tdiv 10000) := by
        conv_lhs => rw [show v = -((Int.natAbs v : Nat) : Int) from by omega]
        rw [Int.neg_tdiv]
      have h4 : (Int.natAbs v : Int).tdiv 10000 = (Int.natAbs v : Int) / 10000 :=
        Int.tdiv_eq_ediv (by omega) (by omega)
      have h5 : (Int.natAbs v : Int) / 10000 = 0 :=
        Int.ediv_eq_zero_of_lt (by omega) (by omega)
      omega
    unfold serialize_fractional
    rw [hq, String.data_append, String.data_append]
    rfl

theorem claim_C6_witness :
    ((-20000 : Int) ≤ -10000) ∧
    (serialize_fractional (-20000)).data.head? = some '-' ∧
    ((-10000 : Int) < -5) ∧ ((-5 : Int) < 0) ∧
    (serialize_fractional (-5)).data.head? = some '0' :=
  ⟨by decide, claim_C6_amended.1 (-20000) (by decide), by decide, by decide,
    claim_C6_amended.2.1 (-5) (by decide) (by decide)⟩

/-! ## Claim C8: the record decoder default for missing amounts -/

/-- Leading and trailing ASCII whitespace stripped from a field, as the
allocation-free `trim_noalloc` does before deserialization (src/lib.rs,
line 73). -/
def trimAscii (s : String) : String :=
  String.mk (((s.data.dropWhile Char.isWhitespace).reverse.dropWhile
    Char.isWhitespace).reverse)

/-- The serde rename table of `OperationType` (src/operation.rs, lines 6-19). -/
def parseOperationType (s : String) : Option OperationType :=
  if s = "deposit" then some OperationType.Deposit
  else if s = "withdrawal" then some OperationType.Withdrawal
  else if s = "dispute" then some OperationType.Dispute
  else if s = "resolve" then some OperationType.Resolve
  else if s = "chargeback" then some OperationType.Chargeback
  else none

/-- Modelled from the spec: the record decoder of §4.C.  The
field-presence handling lives in the patched csv crate (`csv.patch`,
referenced from src/lib.rs line 71 but not under src/), so it is modelled
from the spec's words: arity 4 with field order `type, client, tx, amount`;
each field trimmed of surrounding ASCII whitespace; a missing or empty
amount is permitted only for `dispute`/`resolve`/`chargeback` and defaults
to 0; a present nonempty amount goes through `deserialize_amount` (src);
any parse failure rejects the row. -/
def decodeRecord (fields : List String) : Option Operation :=
  match fields.map trimAscii with
  | [ty, cl, tx] =>
    match parseOperationType ty, parseUnsignedChars (2 ^ 16) cl.data,
        parseUnsignedChars (2 ^ 32) tx.data with
    | some t, some c, some x =>
      if t = OperationType.Dispute ∨ t = OperationType.Resolve ∨
          t = OperationType.Chargeback then some ⟨t, c, x, 0⟩
      else none
    | _, _, _ => none
  | [ty, cl, tx, am] =>
    match parseOperationType ty, parseUnsignedChars (2 ^ 16) cl.data,
        parseUnsignedChars (2 ^ 32) tx.data with
    | some t, some c, some x =>
      if am = "" then
        if t = OperationType.Dispute ∨ t = OperationType.Resolve ∨
            t = OperationType.Chargeback then some ⟨t, c, x, 0⟩
        else none
      else
        (deserialize_amount am).map (fun a => (⟨t, c, x, a⟩ : Operation))
    | _, _, _ => none
  | _ => none

/-- Claim C8: a row of type dispute, resolve or chargeback whose amount
field is absent (arity 3) or empty decodes successfully to an `Operation`
with `amount = 0` — the row is not skipped. -/
theorem claim_C8 (ty cl tx : String) (t : OperationType) (c x : Nat)
    (hty : parseOperationType (trimAscii ty) = some t)
    (ht : t = OperationType.Dispute ∨ t = OperationType.Resolve ∨
      t = OperationType.Chargeback)
    (hcl : parseUnsignedChars (2 ^ 16) (trimAscii cl).data = some c)
    (htx : parseUnsignedChars (2 ^ 32) (trimAscii tx).data = some x) :
    decodeRecord [ty, cl, tx] = some ⟨t, c, x, 0⟩ ∧
    ∀ am : String, trimAscii am = "" →
      decodeRecord [ty, cl, tx, am] = some ⟨t, c, x, 0⟩ := by
  have hcl' : parseUnsignedChars 65536 (trimAscii cl).data = some c := hcl
  have htx' : parseUnsignedChars 4294967296 (trimAscii tx).data = some x := htx
  constructor
  · rcases ht with rfl | rfl | rfl <;> simp [decodeRecord, hty, hcl', htx']
  · intro am ham
    rcases ht with rfl | rfl | rfl <;> simp [decodeRecord, hty, hcl', htx', ham]

theorem claim_C8_witness :
    parseOperationType (trimAscii " dispute ") = some OperationType.Dispute ∧
    parseUnsignedChars (2 ^ 16) (trimAscii " 0 ").data = some 0 ∧
    parseUnsignedChars (2 ^ 32) (trimAscii "2").data = some 2 ∧
    decodeRecord [" dispute ", " 0 ", "2"] =
      some ⟨OperationType.Dispute, 0, 2, 0⟩ :=
  ⟨by decide, by decide, by decide,
    (claim_C8 " dispute " " 0 " "2" OperationType.Dispute 0 2 (by decide)
      (Or.inl rfl) (by decide) (by decide)).1⟩

/-! ## Claim C7: the line-chunked reader (src/read_num_lines.rs) -/

/-- The state of a `BufReader` over an in-memory byte stream: the bytes
currently sitting in the internal buffer, and the bytes not yet pulled
from the underlying source. -/
structure ByteReader where
  buffer : List Nat
  source : List Nat
deriving DecidableEq, Repr

/-- `BufRead::fill_buf` of a `BufReader` with the given capacity: return
the buffered bytes, refilling with up to `cap` source bytes only when the
buffer is empty. -/
def fillBuf (cap : Nat) (r : ByteReader) : List Nat × ByteReader :=
  match r.buffer with
  | [] => (r.source.take cap, ⟨r.source.take cap, r.source.drop cap⟩)
  | b :: bs => (b :: bs, r)

/-- `BufRead::consume`. -/
def ByteReader.consume (r : ByteReader) (n : Nat) : ByteReader :=
  ⟨r.buffer.drop n, r.source⟩

theorem fillBuf_buffer (cap : Nat) (r : ByteReader) :
    (fillBuf cap r).1 = (fillBuf cap r).2.buffer := by
  cases hb : r.buffer <;> simp [fillBuf, hb]

theorem fillBuf_concat (cap : Nat) (r : ByteReader) :
    (fillBuf cap r).2.buffer ++ (fillBuf cap r).2.source = r.buffer ++ r.source := by
  cases hb : r.buffer <;> simp [fillBuf, hb]

theorem fillBuf_total (cap : Nat) (r : ByteReader) :
    (fillBuf cap r).2.buffer.length + (fillBuf cap r).2.source.length =
      r.buffer.length + r.source.length := by
  have h := congrArg List.length (fillBuf_concat cap r)
  simp only [List.length_append] at h
  exact h

/-- The inner `memchr` loop of `read_num_lines` over one `fill_buf` slice:
copy bytes up to and including the `k`-th newline, or the whole slice when
it holds fewer than `k` newlines, and report the number of newlines found. -/
def scanChunk : Nat → List Nat → List Nat × Nat
  | _, [] => ([], 0)
  | k, b :: bs =>
    if b = 10 then
      if k = 1 then ([b], 1)
      else
        let r := scanChunk (k - 1) bs
        (b :: r.1, r.2 + 1)
    else
      let r := scanChunk k bs
      (b :: r.1, r.2)

theorem scanChunk_prefix (k : Nat) (s : List Nat) :
    ∃ t, (scanChunk k s).1 ++ t = s := by
  induction s generalizing k with
  | nil => exact ⟨[], rfl⟩
  | cons b bs ih =>
    by_cases hb : b = 10
    · subst hb
      by_cases hk1 : k = 1
      · subst hk1
        exact ⟨bs, by simp [scanChunk]⟩
      · obtain ⟨t, ht⟩ := ih (k - 1)
        exact ⟨t, by simp [scanChunk, hk1, ht]⟩
    · obtain ⟨t, ht⟩ := ih k
      exact ⟨t, by simp [scanChunk, hb, ht]⟩

theorem scanChunk_count (k : Nat) (s : List Nat) :
    (scanChunk k s).2 = (scanChunk k s).1.count 10 := by
  induction s generalizing k with
  | nil => simp [scanChunk]
  | cons b bs ih =>
    by_cases hb : b = 10
    · subst hb
      by_cases hk1 : k = 1
      · subst hk1
        simp [scanChunk]
      · simp [scanChunk, hk1, List.count_cons, ih (k - 1)]
    · simp [scanChunk, hb, List.count_cons, ih k]

theorem scanChunk_complete_or_all (k : Nat) (s : List Nat) (hk : 1 ≤ k) :
    ((scanChunk k s).2 = k ∧ (scanChunk k s).1.getLast? = some 10) ∨
      ((scanChunk k s).1 = s ∧ (scanChunk k s).2 < k) := by
  induction s generalizing k with
  | nil =>
    right
    exact ⟨rfl, hk⟩
  | cons b bs ih =>
    by_cases hb : b = 10
    · subst hb
      by_cases hk1 : k = 1
      · subst hk1
        left
        simp [scanChunk]
      · have hk' : 1 ≤ k - 1 := by omega
        rcases ih (k - 1) hk' with ⟨hc, hl⟩ | ⟨hall, hlt⟩
        · left
          constructor
          · simp [scanChunk, hk1, hc]
            omega
          · rcases hp : (scanChunk (k - 1) bs).1 with _ | ⟨c, cs⟩
            · rw [hp] at hl
              simp at hl
            · rw [hp] at hl
              simp [scanChunk, hk1, hp]
              rw [← hl]
        · right
          constructor
          · simp [scanChunk, hk1, hall]
          · simp [scanChunk, hk1]
            omega
    · rcases ih k hk with ⟨hc, hl⟩ | ⟨hall, hlt⟩
      · left
        constructor
        · simp [scanChunk, hb, hc]
        · rcases hp : (scanChunk k bs).1 with _ | ⟨c, cs⟩
          · rw [hp] at hl
            simp at hl
          · rw [hp] at hl
            simp [scanChunk, hb, hp]
            rw [← hl]
      · right
        constructor
        · simp [scanChunk, hb, hall]
        · simp [scanChunk, hb]
          omega

theorem scanChunk_append_of_complete {k : Nat} {a : List Nat} (hk : 1 ≤ k)
    (h : (scanChunk k a).2 = k) (b : List Nat) :
    scanChunk k (a ++ b) = scanChunk k a := by
  induction a generalizing k with
  | nil =>
    exfalso
    simp [scanChunk] at h
    omega
  | cons c cs ih =>
    by_cases hc : c = 10
    · subst hc
      by_cases hk1 : k = 1
      · subst hk1
        simp [scanChunk]
      · simp only [scanChunk, eq_self_iff_true, if_true, if_neg hk1] at h ⊢
        have h' : (scanChunk (k - 1) cs).2 = k - 1 := by omega
        have hk' : 1 ≤ k - 1 := by omega
        rw [show cs.append b = cs ++ b from rfl, ih hk' h']
    · simp only [scanChunk, if_neg hc] at h ⊢
      rw [show cs.append b = cs ++ b from rfl, ih hk h]

theorem scanChunk_append_of_incomplete {k : Nat} {a : List Nat} (hk : 1 ≤ k)
    (h : (scanChunk k a).2 < k) (b : List Nat) :
    scanChunk k (a ++ b) =
      ((scanChunk k a).1 ++ (scanChunk (k - (scanChunk k a).2) b).1,
        (scanChunk k a).2 + (scanChunk (k - (scanChunk k a).2) b).2) := by
  induction a generalizing k with
  | nil => simp [scanChunk]
  | cons c cs ih =>
    by_cases hc : c = 10
    · subst hc
      by_cases hk1 : k = 1
      · exfalso
        subst hk1
        simp [scanChunk] at h
      · simp only [scanChunk, eq_self_iff_true, if_true, if_neg hk1] at h ⊢
        have h' : (scanChunk (k - 1) cs).2 < k - 1 := by omega
        have hk' : 1 ≤ k - 1 := by omega
        rw [show cs.append b = cs ++ b from rfl, ih hk' h']
        rw [show k - 1 - (scanChunk (k - 1) cs).2 = k - ((scanChunk (k - 1) cs).2 + 1)
          from by omega]
        refine Prod.ext rfl ?_
        simp only
        omega
    · simp only [scanChunk, if_neg hc] at h ⊢
      rw [show cs.append b = cs ++ b from rfl, ih hk h]
      simp

/-- `read_num_lines` (src/read_num_lines.rs, lines 8-65): repeatedly
`fill_buf`, scan the slice for newlines copying the scanned bytes into the
output, `consume` exactly the bytes scanned, and stop after the
`num_lines`-th newline or at EOF (empty `fill_buf`).  The model returns the
bytes copied into `buf` (the function's `read` result is incremented by
exactly the bytes copied, so it is their count) together with the reader
state left behind. -/
def read_num_lines (cap num_lines : Nat) (r : ByteReader) : List Nat × ByteReader :=
  if (fillBuf cap r).1 = [] then ([], (fillBuf cap r).2)
  else if (scanChunk num_lines (fillBuf cap r).1).2 = num_lines then
    ((scanChunk num_lines (fillBuf cap r).1).1,
      (fillBuf cap r).2.consume (scanChunk num_lines (fillBuf cap r).1).1.length)
  else
    ((scanChunk num_lines (fillBuf cap r).1).1 ++
        (read_num_lines cap (num_lines - (scanChunk num_lines (fillBuf cap r).1).2)
          ((fillBuf cap r).2.consume (fillBuf cap r).1.length)).1,
      (read_num_lines cap (num_lines - (scanChunk num_lines (fillBuf cap r).1).2)
        ((fillBuf cap r).2.consume (fillBuf cap r).1.length)).2)
termination_by r.buffer.length + r.source.length
decreasing_by
  all_goals
    rename_i ha _
    simp only [ByteReader.consume, List.length_drop]
    have h1 := fillBuf_buffer cap r
    have h2 := fillBuf_total cap r
    have h4 : 0 < (fillBuf cap r).1.length := List.length_pos.mpr ha
    have h1' : (fillBuf cap r).1.length = (fillBuf cap r).2.buffer.length := by rw [h1]
    omega

theorem drop_append_length_add (a b : List Nat) (m : Nat) :
    (a ++ b).drop (a.length + m) = b.drop m := by
  rw [List.drop_append_eq_append_drop]
  rw [List.drop_eq_nil_of_le (by omega : a.length ≤ a.length + m)]
  simp

theorem read_num_lines_eq_scan (cap : Nat) (hcap : 1 ≤ cap) (k : Nat) (r : ByteReader) :
    1 ≤ k →
      (read_num_lines cap k r).1 = (scanChunk k (r.buffer ++ r.source)).1 ∧
      (read_num_lines cap k r).2.buffer ++ (read_num_lines cap k r).2.source =
        (r.buffer ++ r.source).drop (read_num_lines cap k r).1.length := by
  induction k, r using read_num_lines.induct cap with
  | case1 k r ha =>
    intro hk
    have hbuf : r.buffer = [] := by
      cases hb : r.buffer with
      | nil => rfl
      | cons b bs =>
        rw [show (fillBuf cap r).1 = b :: bs from by simp [fillBuf, hb]] at ha
        simp at ha
    have hsrc : r.source = [] := by
      cases hs : r.source with
      | nil => rfl
      | cons b bs =>
        obtain ⟨cap', rfl⟩ : ∃ m, cap = m + 1 := ⟨cap - 1, by omega⟩
        rw [show (fillBuf (cap' + 1) r).1 = b :: (bs.take cap')
          from by simp [fillBuf, hbuf, hs]] at ha
        simp at ha
    rw [read_num_lines]
    simp [fillBuf, hbuf, hsrc, scanChunk]
  | case2 k r ha hc =>
    intro hk
    have hBuf := fillBuf_buffer cap r
    have hconc := fillBuf_concat cap r
    have hs : r.buffer ++ r.source = (fillBuf cap r).1 ++ (fillBuf cap r).2.source := by
      rw [hBuf]
      exact hconc.symm
    have hfull := scanChunk_append_of_complete hk hc (fillBuf cap r).2.source
    obtain ⟨t, ht⟩ := scanChunk_prefix k (fillBuf cap r).1
    have hlen : (scanChunk k (fillBuf cap r).1).1.length ≤ (fillBuf cap r).1.length := by
      conv_rhs => rw [← ht]
      simp
    rw [read_num_lines]
    simp only [if_neg ha, if_pos hc]
    constructor
    · rw [hs, hfull]
    · show ((fillBuf cap r).2.buffer.drop (scanChunk k (fillBuf cap r).1).1.length) ++
        (fillBuf cap r).2.source = _
      rw [← List.drop_append_of_le_length (by rw [← hBuf]; exact hlen), hconc, hs]
  | case3 k r ha hc ih =>
    intro hk
    have hBuf := fillBuf_buffer cap r
    have hconc := fillBuf_concat cap r
    have hs : r.buffer ++ r.source = (fillBuf cap r).1 ++ (fillBuf cap r).2.source := by
      rw [hBuf]
      exact hconc.symm
    rcases scanChunk_complete_or_all k (fillBuf cap r).1 hk with ⟨h1, _⟩ | ⟨hall, hlt⟩
    · exact absurd h1 hc
    have hk' : 1 ≤ k - (scanChunk k (fillBuf cap r).1).2 := by omega
    obtain ⟨ih1, ih2⟩ := ih hk'
    have hr2buf : (((fillBuf cap r).2).consume (fillBuf cap r).1.length).buffer = [] := by
      show (fillBuf cap r).2.buffer.drop (fillBuf cap r).1.length = []
      rw [hBuf]
      exact List.drop_length _
    have hr2src : (((fillBuf cap r).2).consume (fillBuf cap r).1.length).source =
      (fillBuf cap r).2.source := rfl
    rw [hr2buf, hr2src] at ih1 ih2
    simp only [List.nil_append] at ih1 ih2
    have hsplit := scanChunk_append_of_incomplete hk hlt (fillBuf cap r).2.source
    rw [read_num_lines]
    simp only [if_neg ha, if_neg hc]
    constructor
    · rw [ih1, hs, hsplit]
    · rw [ih2, hs, hall]
      simp only [List.length_append]
      rw [drop_append_length_add]

/-- Claim C7: for every underlying stream, every `N ≥ 1` and every buffer
capacity `≥ 1` (including capacities smaller than one line),
`read_num_lines` copies into `buf` exactly the shortest prefix of the
remaining stream containing `N` newline bytes — the copied bytes followed
by the bytes left in the reader reassemble the stream exactly, so
successive calls partition it — and the copied prefix either contains
exactly `N` newlines and ends with one (making it the shortest such
prefix), or is the entire remaining stream, which holds fewer than `N`
newlines (the EOF path, final unterminated line included). -/
theorem claim_C7 (cap k : Nat) (r : ByteReader) (hcap : 1 ≤ cap) (hk : 1 ≤ k) :
    (read_num_lines cap k r).1 ++
        ((read_num_lines cap k r).2.buffer ++ (read_num_lines cap k r).2.source) =
      r.buffer ++ r.source ∧
    (((read_num_lines cap k r).1.count 10 = k ∧
        (read_num_lines cap k r).1.getLast? = some 10) ∨
      ((read_num_lines cap k r).1 = r.buffer ++ r.source ∧
        (r.buffer ++ r.source).count 10 < k)) := by
  obtain ⟨h1, h2⟩ := read_num_lines_eq_scan cap hcap k r hk
  constructor
  · rw [h1, h2, h1]
    obtain ⟨t, ht⟩ := scanChunk_prefix k (r.buffer ++ r.source)
    have hdrop : (r.buffer ++ r.source).drop
        (scanChunk k (r.buffer ++ r.source)).1.length = t := by
      generalize hg : (scanChunk k (r.buffer ++ r.source)).1 = p
      rw [hg] at ht
      rw [← ht, List.drop_left]
    rw [hdrop, ht]
  · rcases scanChunk_complete_or_all k (r.buffer ++ r.source) hk with ⟨hc, hl⟩ | ⟨hall, hlt⟩
    · left
      constructor
      · rw [h1, ← scanChunk_count k (r.buffer ++ r.source)]
        exact hc
      · rw [h1]
        exact hl
    · right
      constructor
      · rw [h1, hall]
      · rw [show (r.buffer ++ r.source).count 10 =
          ((scanChunk k (r.buffer ++ r.source)).1).count 10 from by rw [hall]]
        rw [← scanChunk_count]
        exact hlt

theorem claim_C7_witness :
    (1 : Nat) ≤ 1 ∧ (1 : Nat) ≤ 2 ∧
    ((read_num_lines 1 2 ⟨[], [72, 10, 87, 10, 33]⟩).1 ++
        ((read_num_lines 1 2 ⟨[], [72, 10, 87, 10, 33]⟩).2.buffer ++
          (read_num_lines 1 2 ⟨[], [72, 10, 87, 10, 33]⟩).2.source) =
      (⟨[], [72, 10, 87, 10, 33]⟩ : ByteReader).buffer ++
        (⟨[], [72, 10, 87, 10, 33]⟩ : ByteReader).source ∧
      (((read_num_lines 1 2 ⟨[], [72, 10, 87, 10, 33]⟩).1.count 10 = 2 ∧
          (read_num_lines 1 2 ⟨[], [72, 10, 87, 10, 33]⟩).1.getLast? = some 10) ∨
        ((read_num_lines 1 2 ⟨[], [72, 10, 87, 10, 33]⟩).1 =
            (⟨[], [72, 10, 87, 10, 33]⟩ : ByteReader).buffer ++
              (⟨[], [72, 10, 87, 10, 33]⟩ : ByteReader).source ∧
          ((⟨[], [72, 10, 87, 10, 33]⟩ : ByteReader).buffer ++
            (⟨[], [72, 10, 87, 10, 33]⟩ : ByteReader).source).count 10 < 2))) :=
  ⟨by decide, by decide, claim_C7 1 2 ⟨[], [72, 10, 87, 10, 33]⟩ (by decide) (by decide)⟩
